import Mathlib

/-!
Verification of the ncdu-zig ncurses compatibility shim (src/ncurses_refs.c)
and of the disk-usage core that the specification defines around it.

The shim consists of six C functions, each a single return of an ncurses
ACS_* macro:

  chtype ncdu_acs_ulcorner() { return ACS_ULCORNER; }
  chtype ncdu_acs_llcorner() { return ACS_LLCORNER; }
  chtype ncdu_acs_urcorner() { return ACS_URCORNER; }
  chtype ncdu_acs_lrcorner() { return ACS_LRCORNER; }
  chtype ncdu_acs_hline()    { return ACS_VLINE   ; }
  chtype ncdu_acs_vline()    { return ACS_HLINE   ; }

In ncurses, chtype is an unsigned integer type and each ACS_* macro expands
to a read of the mutable global table acs_map at a fixed unsigned-char index
(curses.h: ACS_ULCORNER is acs_map at char l, ACS_LLCORNER at m, ACS_URCORNER
at k, ACS_LRCORNER at j, ACS_HLINE at q, ACS_VLINE at x).  We embed the
library state as a table from Fin 256 to Nat and each shim function as a
state-passing function returning its result together with the (unchanged)
state, so that purity and state-dependence are expressible.
-/

namespace Ncdu

/-- The terminal-library state visible to the shim: the ncurses
alternate-character-set table acs_map, indexed by unsigned char.  The table
is mutable global state, filled in by the library when the terminal session
is initialised; before initialisation it is all zeroes. -/
structure AcsState where
  acs_map : Fin 256 → Nat

/-- Index of ACS_ULCORNER in acs_map: char l, code 108. -/
def ulcornerIdx : Fin 256 := 108

/-- Index of ACS_LLCORNER in acs_map: char m, code 109. -/
def llcornerIdx : Fin 256 := 109

/-- Index of ACS_URCORNER in acs_map: char k, code 107. -/
def urcornerIdx : Fin 256 := 107

/-- Index of ACS_LRCORNER in acs_map: char j, code 106. -/
def lrcornerIdx : Fin 256 := 106

/-- Index of ACS_HLINE in acs_map: char q, code 113. -/
def hlineIdx : Fin 256 := 113

/-- Index of ACS_VLINE in acs_map: char x, code 120. -/
def vlineIdx : Fin 256 := 120

/-- The curses.h macro ACS_ULCORNER: acs_map at index 108. -/
def ACS_ULCORNER (s : AcsState) : Nat := s.acs_map ulcornerIdx

/-- The curses.h macro ACS_LLCORNER: acs_map at index 109. -/
def ACS_LLCORNER (s : AcsState) : Nat := s.acs_map llcornerIdx

/-- The curses.h macro ACS_URCORNER: acs_map at index 107. -/
def ACS_URCORNER (s : AcsState) : Nat := s.acs_map urcornerIdx

/-- The curses.h macro ACS_LRCORNER: acs_map at index 106. -/
def ACS_LRCORNER (s : AcsState) : Nat := s.acs_map lrcornerIdx

/-- The curses.h macro ACS_HLINE: acs_map at index 113. -/
def ACS_HLINE (s : AcsState) : Nat := s.acs_map hlineIdx

/-- The curses.h macro ACS_VLINE: acs_map at index 120. -/
def ACS_VLINE (s : AcsState) : Nat := s.acs_map vlineIdx

/-- Embedding of chtype ncdu_acs_ulcorner: returns ACS_ULCORNER, state untouched. -/
def ncdu_acs_ulcorner (s : AcsState) : Nat × AcsState := (ACS_ULCORNER s, s)

/-- Embedding of chtype ncdu_acs_llcorner: returns ACS_LLCORNER, state untouched. -/
def ncdu_acs_llcorner (s : AcsState) : Nat × AcsState := (ACS_LLCORNER s, s)

/-- Embedding of chtype ncdu_acs_urcorner: returns ACS_URCORNER, state untouched. -/
def ncdu_acs_urcorner (s : AcsState) : Nat × AcsState := (ACS_URCORNER s, s)

/-- Embedding of chtype ncdu_acs_lrcorner: returns ACS_LRCORNER, state untouched. -/
def ncdu_acs_lrcorner (s : AcsState) : Nat × AcsState := (ACS_LRCORNER s, s)

/-- Embedding of chtype ncdu_acs_hline: the source line reads
return ACS_VLINE, so the embedding returns ACS_VLINE, state untouched. -/
def ncdu_acs_hline (s : AcsState) : Nat × AcsState := (ACS_VLINE s, s)

/-- Embedding of chtype ncdu_acs_vline: the source line reads
return ACS_HLINE, so the embedding returns ACS_HLINE, state untouched. -/
def ncdu_acs_vline (s : AcsState) : Nat × AcsState := (ACS_HLINE s, s)

/-- Modelled from the spec: the Glyph Provider operation horizontalLine of
section 6 names the horizontal line-drawing glyph, in ncurses ACS_HLINE. -/
def spec_horizontalLine (s : AcsState) : Nat := ACS_HLINE s

/-- Modelled from the spec: the Glyph Provider operation verticalLine of
section 6 names the vertical line-drawing glyph, in ncurses ACS_VLINE. -/
def spec_verticalLine (s : AcsState) : Nat := ACS_VLINE s

/-- Modelled from the spec: the Glyph Provider operation topLeftCorner. -/
def spec_topLeftCorner (s : AcsState) : Nat := ACS_ULCORNER s

/-- Modelled from the spec: the Glyph Provider operation bottomLeftCorner. -/
def spec_bottomLeftCorner (s : AcsState) : Nat := ACS_LLCORNER s

/-- Modelled from the spec: the Glyph Provider operation topRightCorner. -/
def spec_topRightCorner (s : AcsState) : Nat := ACS_URCORNER s

/-- Modelled from the spec: the Glyph Provider operation bottomRightCorner. -/
def spec_bottomRightCorner (s : AcsState) : Nat := ACS_LRCORNER s

/-- The plain ASCII substitutes the spec names for missing line-drawing
capability: plus 43, hyphen 45, pipe 124. -/
def asciiSubstitutes : List Nat := [43, 45, 124]

/-- Modelled from the spec: a terminal session that has been initialised on a
terminal without line-drawing capability; ncurses then fills the six acs_map
slots with the plain ASCII substitutes (plus for the corners, hyphen for the
horizontal line, pipe for the vertical line). -/
def FallbackInitialized (s : AcsState) : Prop :=
  s.acs_map ulcornerIdx = 43 ∧ s.acs_map llcornerIdx = 43 ∧
  s.acs_map urcornerIdx = 43 ∧ s.acs_map lrcornerIdx = 43 ∧
  s.acs_map hlineIdx = 45 ∧ s.acs_map vlineIdx = 124

/-- A concrete fallback-initialised table: ASCII substitutes everywhere. -/
def fallbackState : AcsState :=
  ⟨fun i => if i = hlineIdx then 45 else if i = vlineIdx then 124 else 43⟩

/-- The uninitialised table: every slot zero, as before terminal start-up. -/
def zeroAcs : AcsState := ⟨fun _ => 0⟩

/-- A table holding its own index in each slot, to tell slots apart. -/
def idAcs : AcsState := ⟨fun i => (i : Nat)⟩

/-- Claim C1 (code evaluation at the failing input): ncdu_acs_hline does not
return the horizontal-line glyph.  On the slot-distinguishing table idAcs it
returns 120, the vertical-line slot, while the horizontal-line glyph is at
slot 113; on every state it returns ACS_VLINE, not ACS_HLINE as the spec
operation horizontalLine demands. -/
theorem hline_returns_vertical_glyph :
    (ncdu_acs_hline idAcs).1 = 120 ∧ spec_horizontalLine idAcs = 113 ∧
    (ncdu_acs_hline idAcs).1 ≠ spec_horizontalLine idAcs ∧
    ∀ s : AcsState, (ncdu_acs_hline s).1 = ACS_VLINE s :=
  ⟨rfl, rfl, by decide, fun _ => rfl⟩

/-- Claim C2 (code evaluation at the failing input): ncdu_acs_vline does not
return the vertical-line glyph.  On the slot-distinguishing table idAcs it
returns 113, the horizontal-line slot, while the vertical-line glyph is at
slot 120; on every state it returns ACS_HLINE, not ACS_VLINE as the spec
operation verticalLine demands. -/
theorem vline_returns_horizontal_glyph :
    (ncdu_acs_vline idAcs).1 = 113 ∧ spec_verticalLine idAcs = 120 ∧
    (ncdu_acs_vline idAcs).1 ≠ spec_verticalLine idAcs ∧
    ∀ s : AcsState, (ncdu_acs_vline s).1 = ACS_HLINE s :=
  ⟨rfl, rfl, by decide, fun _ => rfl⟩

/-- Claim C3: each of the four corner accessors returns the corner glyph
matching its name, in every state: ncdu_acs_ulcorner the top-left glyph,
ncdu_acs_llcorner the bottom-left, ncdu_acs_urcorner the top-right,
ncdu_acs_lrcorner the bottom-right. -/
theorem corner_accessors_match_names (s : AcsState) :
    (ncdu_acs_ulcorner s).1 = spec_topLeftCorner s ∧
    (ncdu_acs_llcorner s).1 = spec_bottomLeftCorner s ∧
    (ncdu_acs_urcorner s).1 = spec_topRightCorner s ∧
    (ncdu_acs_lrcorner s).1 = spec_bottomRightCorner s :=
  ⟨rfl, rfl, rfl, rfl⟩

/-- Claim C4: every accessor is total and failure-free.  Each embedding is a
total function into Nat × AcsState, with no Option or Except in its type and
no failure branch in its body; each returns the table entry at its fixed slot
in every state, and on a fallback-initialised session each of the six results
is one of the plain ASCII substitutes. -/
theorem accessors_total_with_ascii_fallback (s : AcsState)
    (h : FallbackInitialized s) :
    (ncdu_acs_ulcorner s).1 ∈ asciiSubstitutes ∧
    (ncdu_acs_llcorner s).1 ∈ asciiSubstitutes ∧
    (ncdu_acs_urcorner s).1 ∈ asciiSubstitutes ∧
    (ncdu_acs_lrcorner s).1 ∈ asciiSubstitutes ∧
    (ncdu_acs_hline s).1 ∈ asciiSubstitutes ∧
    (ncdu_acs_vline s).1 ∈ asciiSubstitutes := by
  obtain ⟨h1, h2, h3, h4, h5, h6⟩ := h
  refine ⟨?_, ?_, ?_, ?_, ?_, ?_⟩ <;>
    simp [ncdu_acs_ulcorner, ncdu_acs_llcorner, ncdu_acs_urcorner,
      ncdu_acs_lrcorner, ncdu_acs_hline, ncdu_acs_vline,
      ACS_ULCORNER, ACS_LLCORNER, ACS_URCORNER, ACS_LRCORNER,
      ACS_HLINE, ACS_VLINE, asciiSubstitutes, h1, h2, h3, h4, h5, h6]

/-- Witness for claim C4, at the concrete fallback-initialised state. -/
theorem accessors_total_with_ascii_fallback_witness :
    FallbackInitialized fallbackState ∧
    (ncdu_acs_hline fallbackState).1 ∈ asciiSubstitutes :=
  ⟨by unfold FallbackInitialized; decide,
   (accessors_total_with_ascii_fallback fallbackState
     (by unfold FallbackInitialized; decide)).2.2.2.2.1⟩

/-- Claim C5: each accessor is deterministic in the table: two calls made in
states with identical acs_map tables return equal values, so within one
terminal session (whose table is fixed after initialisation) the value is
invariant. -/
theorem accessors_deterministic (s1 s2 : AcsState)
    (h : s1.acs_map = s2.acs_map) :
    (ncdu_acs_ulcorner s1).1 = (ncdu_acs_ulcorner s2).1 ∧
    (ncdu_acs_llcorner s1).1 = (ncdu_acs_llcorner s2).1 ∧
    (ncdu_acs_urcorner s1).1 = (ncdu_acs_urcorner s2).1 ∧
    (ncdu_acs_lrcorner s1).1 = (ncdu_acs_lrcorner s2).1 ∧
    (ncdu_acs_hline s1).1 = (ncdu_acs_hline s2).1 ∧
    (ncdu_acs_vline s1).1 = (ncdu_acs_vline s2).1 := by
  refine ⟨?_, ?_, ?_, ?_, ?_, ?_⟩ <;>
    simp [ncdu_acs_ulcorner, ncdu_acs_llcorner, ncdu_acs_urcorner,
      ncdu_acs_lrcorner, ncdu_acs_hline, ncdu_acs_vline,
      ACS_ULCORNER, ACS_LLCORNER, ACS_URCORNER, ACS_LRCORNER,
      ACS_HLINE, ACS_VLINE, h]

/-- Witness for claim C5, at two concrete states sharing one table. -/
theorem accessors_deterministic_witness :
    idAcs.acs_map = idAcs.acs_map ∧
    (ncdu_acs_hline idAcs).1 = (ncdu_acs_hline idAcs).1 :=
  ⟨rfl, (accessors_deterministic idAcs idAcs rfl).2.2.2.2.1⟩

/-- Claim C6: calling any accessor leaves the program state unchanged: the
state component of every result is the input state itself, mirroring the
single direct return with no mutation in the source. -/
theorem accessors_leave_state_unchanged (s : AcsState) :
    (ncdu_acs_ulcorner s).2 = s ∧ (ncdu_acs_llcorner s).2 = s ∧
    (ncdu_acs_urcorner s).2 = s ∧ (ncdu_acs_lrcorner s).2 = s ∧
    (ncdu_acs_hline s).2 = s ∧ (ncdu_acs_vline s).2 = s :=
  ⟨rfl, rfl, rfl, rfl, rfl, rfl⟩

/-- Claim C10: each accessor reads acs_map at a fixed index at call time
rather than returning a compile-time constant; on the uninitialised all-zero
table every accessor returns 0, which is none of the documented ASCII
fallback characters. -/
theorem accessors_read_mutable_table (s : AcsState) :
    ((ncdu_acs_ulcorner s).1 = s.acs_map ulcornerIdx ∧
     (ncdu_acs_llcorner s).1 = s.acs_map llcornerIdx ∧
     (ncdu_acs_urcorner s).1 = s.acs_map urcornerIdx ∧
     (ncdu_acs_lrcorner s).1 = s.acs_map lrcornerIdx ∧
     (ncdu_acs_hline s).1 = s.acs_map vlineIdx ∧
     (ncdu_acs_vline s).1 = s.acs_map hlineIdx) ∧
    ((ncdu_acs_ulcorner zeroAcs).1 = 0 ∧ (ncdu_acs_llcorner zeroAcs).1 = 0 ∧
     (ncdu_acs_urcorner zeroAcs).1 = 0 ∧ (ncdu_acs_lrcorner zeroAcs).1 = 0 ∧
     (ncdu_acs_hline zeroAcs).1 = 0 ∧ (ncdu_acs_vline zeroAcs).1 = 0) ∧
    (0 : Nat) ∉ asciiSubstitutes :=
  ⟨⟨rfl, rfl, rfl, rfl, rfl, rfl⟩,
   ⟨rfl, rfl, rfl, rfl, rfl, rfl⟩, by decide⟩

/-!
The remaining claims concern the disk-usage core that the specification
defines in sections 3, 4 and 8: the Tree Model of Entries, the Aggregation
Engine and the hard-link deduplication of the Filesystem Walker.  That code
is part of the repository but not of the provided fragment, so it is
modelled from the specification text.
-/

/-- Modelled from the spec: the type of a filesystem object in the data
model of section 3: file, directory, symlink or other. -/
inductive EKind where
  | file
  | dir
  | symlink
  | other
deriving DecidableEq

/-- Modelled from the spec: the per-Entry metadata of section 3, one
filesystem object: name, type, apparent size, disk usage, device id, inode,
hard-link count, modification time, and the flags set (excluded,
error-during-read, is-mount-point, counted-hardlink). -/
structure EntryMeta where
  name : String
  kind : EKind
  asize : Nat
  dusage : Nat
  dev : Nat
  ino : Nat
  nlink : Nat
  mtime : Nat
  excluded : Bool
  err : Bool
  mountPoint : Bool
  counted : Bool
deriving DecidableEq

/-- Modelled from the spec: a node cached aggregate of section 3: total
apparent size, total disk usage, total item count, has-error flag. -/
structure Agg where
  asize : Nat
  dusage : Nat
  items : Nat
  err : Bool
deriving DecidableEq

/-- Modelled from the spec: the in-memory tree of section 3; every node
carries its metadata, its cached aggregates and its ordered list of
children (insertion order from the walk). -/
inductive Entry where
  | mk (meta : EntryMeta) (agg : Agg) (children : List Entry)

/-- The metadata of a node. -/
def Entry.meta : Entry → EntryMeta
  | .mk m _ _ => m

/-- The cached aggregate of a node. -/
def Entry.agg : Entry → Agg
  | .mk _ a _ => a

/-- The ordered children of a node. -/
def Entry.children : Entry → List Entry
  | .mk _ _ cs => cs

mutual

/-- Node count of a tree, the measure for recursion over Entry. -/
def esize : Entry → Nat
  | .mk _ _ cs => 1 + lsize cs

/-- Node count of a forest. -/
def lsize : List Entry → Nat
  | [] => 0
  | c :: cs => esize c + lsize cs

end

theorem esize_le_lsize {c : Entry} {l : List Entry} (h : c ∈ l) :
    esize c ≤ lsize l := by
  induction l with
  | nil => cases h
  | cons a l ih =>
    rcases List.mem_cons.1 h with rfl | h2
    · exact Nat.le_add_right _ _
    · exact Nat.le_trans (ih h2) (Nat.le_add_left _ _)

/-- Strong induction over Entry trees: to prove a property of every tree it
is enough to prove it at a node given it for all children. -/
theorem Entry.strongInduction {P : Entry → Prop}
    (h : ∀ m a cs, (∀ c, c ∈ cs → P c) → P (.mk m a cs)) : ∀ t, P t
  | .mk m a cs => h m a cs (fun c hc => Entry.strongInduction h c)
termination_by t => esize t
decreasing_by
  simp only [esize]
  have := esize_le_lsize hc
  omega

mutual

/-- The metadata of every node of the tree, in depth-first preorder. -/
def metasOf : Entry → List EntryMeta
  | .mk m _ cs => m :: metasOfList cs

/-- The metadata of every node of a forest, in depth-first preorder. -/
def metasOfList : List Entry → List EntryMeta
  | [] => []
  | c :: cs => metasOf c ++ metasOfList cs

end

/-- Own apparent-size contribution of a node: per section 4.3 files
contribute their own size directly, other nodes contribute nothing of
their own. -/
def ownAsize (m : EntryMeta) : Nat := if m.kind = EKind.file then m.asize else 0

/-- Own disk-usage contribution of a node: files contribute their own disk
usage, except that an Entry flagged counted-hardlink contributes zero
additional disk usage (section 4.1). -/
def ownDusage (m : EntryMeta) : Nat :=
  if m.kind = EKind.file then (if m.counted then 0 else m.dusage) else 0

/-- Sum of the cached apparent sizes of a children list. -/
def sumAsize (l : List Entry) : Nat := (l.map (fun c => c.agg.asize)).sum

/-- Sum of the cached disk usages of a children list. -/
def sumDusage (l : List Entry) : Nat := (l.map (fun c => c.agg.dusage)).sum

/-- Item count contributed by a children list: each child itself plus the
items below it. -/
def sumItems (l : List Entry) : Nat := (l.map (fun c => c.agg.items + 1)).sum

/-- Whether any child carries the has-error flag in its cached aggregate. -/
def anyErr (l : List Entry) : Bool := l.any (fun c => c.agg.err)

/-- Modelled from the spec: the aggregate section 4.3 stores at a node whose
children already carry correct aggregates: apparent size, disk usage and
item count as the sum over children, files contributing their own size
directly, and the error flag as the logical OR over self and children. -/
def aggOf (m : EntryMeta) (cs : List Entry) : Agg :=
  { asize := ownAsize m + sumAsize cs
  , dusage := ownDusage m + sumDusage cs
  , items := sumItems cs
  , err := m.err || anyErr cs }

mutual

/-- Modelled from the spec: recompute of section 4.3, walking the subtree
bottom-up exactly once and rebuilding every cached aggregate, children
visited in their stored insertion order. -/
def recompute : Entry → Entry
  | .mk m _ cs =>
    let cs2 := recomputeList cs
    .mk m (aggOf m cs2) cs2

/-- recompute applied to a children list, preserving its order. -/
def recomputeList : List Entry → List Entry
  | [] => []
  | c :: cs => recompute c :: recomputeList cs

end

theorem recompute_mk (m : EntryMeta) (a : Agg) (cs : List Entry) :
    recompute (.mk m a cs) =
      .mk m (aggOf m (recomputeList cs)) (recomputeList cs) := by
  simp [recompute]

theorem recomputeList_nil : recomputeList [] = [] := by simp [recomputeList]

theorem recomputeList_cons (c : Entry) (cs : List Entry) :
    recomputeList (c :: cs) = recompute c :: recomputeList cs := by
  simp [recomputeList]

theorem meta_recompute (t : Entry) : (recompute t).meta = t.meta := by
  cases t with
  | mk m a cs => rw [recompute_mk]; rfl

theorem children_recompute (t : Entry) :
    (recompute t).children = recomputeList t.children := by
  cases t with
  | mk m a cs => rw [recompute_mk]; rfl

theorem agg_recompute (t : Entry) :
    (recompute t).agg = aggOf t.meta (recomputeList t.children) := by
  cases t with
  | mk m a cs => rw [recompute_mk]; rfl

/-- Membership in a recomputed forest is recompute of membership. -/
theorem mem_recomputeList {u : Entry} {l : List Entry} :
    u ∈ recomputeList l ↔ ∃ c, c ∈ l ∧ u = recompute c := by
  induction l with
  | nil => simp [recomputeList_nil]
  | cons a l ih =>
    rw [recomputeList_cons]
    simp only [List.mem_cons, ih]
    constructor
    · rintro (rfl | ⟨c, hc, rfl⟩)
      · exact ⟨a, Or.inl rfl, rfl⟩
      · exact ⟨c, Or.inr hc, rfl⟩
    · rintro ⟨c, rfl | hc, rfl⟩
      · exact Or.inl rfl
      · exact Or.inr ⟨c, hc, rfl⟩

/-- SubEntry u t: u is a node of the subtree rooted at t, that is, t is u
itself or an ancestor of u. -/
inductive SubEntry : Entry → Entry → Prop where
  | refl (t : Entry) : SubEntry t t
  | step {u c t : Entry} : c ∈ t.children → SubEntry u c → SubEntry u t

/-- A node of a recomputed tree is the recomputation of a node of the
original tree at the same position. -/
theorem subEntry_recompute_inv {u w : Entry} (h : SubEntry u w) :
    ∀ t, w = recompute t → ∃ v, SubEntry v t ∧ u = recompute v := by
  induction h with
  | refl => exact fun t ht => ⟨t, SubEntry.refl t, ht⟩
  | step hc _ ih =>
    intro t ht
    subst ht
    rw [children_recompute] at hc
    obtain ⟨c0, hc0, rfl⟩ := mem_recomputeList.1 hc
    obtain ⟨v, hv, rfl⟩ := ih c0 rfl
    exact ⟨v, SubEntry.step hc0 hv, rfl⟩

/-- recompute maps nodes of a tree to nodes of the recomputed tree. -/
theorem subEntry_recompute {u t : Entry} (h : SubEntry u t) :
    SubEntry (recompute u) (recompute t) := by
  induction h with
  | refl => exact SubEntry.refl _
  | step hc _ ih =>
    refine SubEntry.step ?_ ih
    rw [children_recompute]
    exact mem_recomputeList.2 ⟨_, hc, rfl⟩

/-- After recompute, every node of the result carries exactly the aggregate
determined by its own metadata and its children. -/
theorem agg_recompute_local {t u : Entry} (h : SubEntry u (recompute t)) :
    u.agg = aggOf u.meta u.children := by
  obtain ⟨v, _, rfl⟩ := subEntry_recompute_inv h t rfl
  cases v with
  | mk m a cs => rw [recompute_mk]; rfl

theorem recomputeList_idem_of (l : List Entry)
    (h : ∀ c, c ∈ l → recompute (recompute c) = recompute c) :
    recomputeList (recomputeList l) = recomputeList l := by
  induction l with
  | nil => simp [recomputeList_nil]
  | cons a l ih =>
    rw [recomputeList_cons, recomputeList_cons, h a (List.mem_cons_self a l),
      ih (fun c hc => h c (List.mem_cons_of_mem _ hc))]

/-- recompute is idempotent. -/
theorem recompute_idem (t : Entry) : recompute (recompute t) = recompute t := by
  refine @Entry.strongInduction
    (fun t => recompute (recompute t) = recompute t) (fun m a cs ih => ?_) t
  show recompute (recompute (Entry.mk m a cs)) = recompute (Entry.mk m a cs)
  rw [recompute_mk, recompute_mk, recomputeList_idem_of cs ih]

/-- The preorder metadata of a subtree node is a sublist of the preorder
metadata of the whole tree. -/
theorem metasOf_sublist {u w : Entry} (h : SubEntry u w) :
    (metasOf u).Sublist (metasOf w) := by
  induction h with
  | refl => exact List.Sublist.refl _
  | step hc _hsub ih =>
    refine List.Sublist.trans ih ?_
    rename_i c2 t2
    cases t2 with
    | mk m a cs =>
      simp only [Entry.children] at hc
      have hsub : (metasOf c2).Sublist (metasOfList cs) := by
        clear ih
        induction cs with
        | nil => cases hc
        | cons b l ihl =>
          rcases List.mem_cons.1 hc with rfl | h2
          · simp only [metasOfList]
            exact List.sublist_append_left _ _
          · simp only [metasOfList]
            exact List.Sublist.trans (ihl h2) (List.sublist_append_right _ _)
      simp only [metasOf]
      exact List.Sublist.trans hsub (List.sublist_cons_of_sublist _ (List.Sublist.refl _))

/-- The metadata of a subtree node occurs in the preorder metadata list. -/
theorem meta_mem_metasOf {u w : Entry} (h : SubEntry u w) :
    u.meta ∈ metasOf w := by
  have hs := metasOf_sublist h
  refine hs.mem ?_
  cases u with
  | mk m a cs => exact List.mem_cons_self _ _

/-- Sum of own disk-usage contributions over the preorder metadata: the
actual disk usage a subtree accounts for after hard-link deduplication. -/
def totalDusage (l : List EntryMeta) : Nat := (l.map ownDusage).sum

/-- Sum of own apparent-size contributions over the preorder metadata. -/
def totalAsize (l : List EntryMeta) : Nat := (l.map ownAsize).sum

/-- Whether any metadata record carries the error flag. -/
def anyMetaErr (l : List EntryMeta) : Bool := l.any (fun m => m.err)

theorem totalDusage_append (l1 l2 : List EntryMeta) :
    totalDusage (l1 ++ l2) = totalDusage l1 + totalDusage l2 := by
  simp [totalDusage]

theorem totalAsize_append (l1 l2 : List EntryMeta) :
    totalAsize (l1 ++ l2) = totalAsize l1 + totalAsize l2 := by
  simp [totalAsize]

theorem sumDusage_recomputeList (l : List Entry)
    (h : ∀ c, c ∈ l → (recompute c).agg.dusage = totalDusage (metasOf c)) :
    sumDusage (recomputeList l) = totalDusage (metasOfList l) := by
  induction l with
  | nil => simp [recomputeList_nil, sumDusage, metasOfList, totalDusage]
  | cons a l ih =>
    rw [recomputeList_cons]
    simp only [sumDusage, List.map_cons, List.sum_cons, metasOfList,
      totalDusage_append]
    rw [h a (List.mem_cons_self a l)]
    have := ih (fun c hc => h c (List.mem_cons_of_mem _ hc))
    simp only [sumDusage] at this
    rw [this]

/-- The recomputed disk-usage aggregate of a tree is the sum of own
contributions over its preorder metadata. -/
theorem agg_dusage_recompute (t : Entry) :
    (recompute t).agg.dusage = totalDusage (metasOf t) := by
  refine @Entry.strongInduction
    (fun t => (recompute t).agg.dusage = totalDusage (metasOf t))
    (fun m a cs ih => ?_) t
  show (recompute (Entry.mk m a cs)).agg.dusage = totalDusage (metasOf (Entry.mk m a cs))
  rw [recompute_mk]
  simp only [Entry.agg, aggOf, metasOf, totalDusage, List.map_cons,
    List.sum_cons]
  have := sumDusage_recomputeList cs ih
  simp only [totalDusage] at this
  rw [this]

theorem sumAsize_recomputeList (l : List Entry)
    (h : ∀ c, c ∈ l → (recompute c).agg.asize = totalAsize (metasOf c)) :
    sumAsize (recomputeList l) = totalAsize (metasOfList l) := by
  induction l with
  | nil => simp [recomputeList_nil, sumAsize, metasOfList, totalAsize]
  | cons a l ih =>
    rw [recomputeList_cons]
    simp only [sumAsize, List.map_cons, List.sum_cons, metasOfList,
      totalAsize_append]
    rw [h a (List.mem_cons_self a l)]
    have := ih (fun c hc => h c (List.mem_cons_of_mem _ hc))
    simp only [sumAsize] at this
    rw [this]

/-- The recomputed apparent-size aggregate of a tree is the sum of own
contributions over its preorder metadata. -/
theorem agg_asize_recompute (t : Entry) :
    (recompute t).agg.asize = totalAsize (metasOf t) := by
  refine @Entry.strongInduction
    (fun t => (recompute t).agg.asize = totalAsize (metasOf t))
    (fun m a cs ih => ?_) t
  show (recompute (Entry.mk m a cs)).agg.asize = totalAsize (metasOf (Entry.mk m a cs))
  rw [recompute_mk]
  simp only [Entry.agg, aggOf, metasOf, totalAsize, List.map_cons,
    List.sum_cons]
  have := sumAsize_recomputeList cs ih
  simp only [totalAsize] at this
  rw [this]

theorem anyErr_recomputeList (l : List Entry)
    (h : ∀ c, c ∈ l → (recompute c).agg.err = anyMetaErr (metasOf c)) :
    anyErr (recomputeList l) = anyMetaErr (metasOfList l) := by
  induction l with
  | nil => simp [recomputeList_nil, anyErr, metasOfList, anyMetaErr]
  | cons a l ih =>
    rw [recomputeList_cons]
    simp only [anyErr, List.any_cons, metasOfList, anyMetaErr,
      List.any_append]
    rw [h a (List.mem_cons_self a l)]
    have := ih (fun c hc => h c (List.mem_cons_of_mem _ hc))
    simp only [anyErr, anyMetaErr] at this
    rw [this]
    simp [anyMetaErr]

/-- The recomputed error aggregate of a tree is the OR of the error flags
over its preorder metadata. -/
theorem agg_err_recompute (t : Entry) :
    (recompute t).agg.err = anyMetaErr (metasOf t) := by
  refine @Entry.strongInduction
    (fun t => (recompute t).agg.err = anyMetaErr (metasOf t))
    (fun m a cs ih => ?_) t
  show (recompute (Entry.mk m a cs)).agg.err = anyMetaErr (metasOf (Entry.mk m a cs))
  rw [recompute_mk]
  simp only [Entry.agg, aggOf, metasOf, anyMetaErr, List.any_cons]
  have := anyErr_recomputeList cs ih
  simp only [anyMetaErr] at this
  rw [this]

/-- Metadata of a plain file with no special flags. -/
def fileMeta (nm : String) (sz ino : Nat) (e : Bool) : EntryMeta :=
  { name := nm, kind := EKind.file, asize := sz, dusage := sz, dev := 1,
    ino := ino, nlink := 1, mtime := 0, excluded := false, err := e,
    mountPoint := false, counted := false }

/-- Metadata of a directory with no special flags. -/
def dirMeta (nm : String) : EntryMeta :=
  { name := nm, kind := EKind.dir, asize := 0, dusage := 0, dev := 1,
    ino := 0, nlink := 1, mtime := 0, excluded := false, err := false,
    mountPoint := false, counted := false }

/-- A blank cached aggregate, the state before the Aggregation Engine runs. -/
def blankAgg : Agg := { asize := 0, dusage := 0, items := 0, err := false }

/-- The worked scenario of section 8: a root directory with files A of 100
bytes and B of 200 bytes and a subdirectory D holding C of 50 bytes. -/
def sampleTree : Entry :=
  .mk (dirMeta "root") blankAgg
    [ .mk (fileMeta "A" 100 11 false) blankAgg []
    , .mk (fileMeta "B" 200 12 false) blankAgg []
    , .mk (dirMeta "D") blankAgg [ .mk (fileMeta "C" 50 13 false) blankAgg [] ] ]

/-- Claim C7: after recompute, every subtree node satisfies size(node) =
sum of the sizes of its children, plus the node own size if it is a file;
and recompute is idempotent: recomputing again without an intervening
mutation returns the identical tree, aggregates included. -/
theorem recompute_size_sum_and_idempotent (t : Entry) :
    (∀ u, SubEntry u (recompute t) →
      u.agg.asize = sumAsize u.children +
        (if u.meta.kind = EKind.file then u.meta.asize else 0)) ∧
    recompute (recompute t) = recompute t := by
  constructor
  · intro u hu
    rw [agg_recompute_local hu]
    simp [aggOf, ownAsize, Nat.add_comm]
  · exact recompute_idem t

/-- Witness for claim C7 at the section 8 scenario tree: the recomputed
root aggregate is 350 bytes, equals the sum over its children, and a second
recompute changes nothing. -/
theorem recompute_size_sum_witness :
    SubEntry (recompute sampleTree) (recompute sampleTree) ∧
    (recompute sampleTree).agg.asize = 350 ∧
    (recompute sampleTree).agg.asize =
      sumAsize (recompute sampleTree).children +
        (if (recompute sampleTree).meta.kind = EKind.file
          then (recompute sampleTree).meta.asize else 0) ∧
    recompute (recompute sampleTree) = recompute sampleTree := by
  refine ⟨SubEntry.refl _, ?_, ?_, ?_⟩
  · simp [sampleTree, recompute_mk, recomputeList_cons, recomputeList_nil,
      aggOf, sumAsize, ownAsize, Entry.agg, Entry.meta, Entry.children,
      fileMeta, dirMeta]
  · exact (recompute_size_sum_and_idempotent sampleTree).1 _ (SubEntry.refl _)
  · exact (recompute_size_sum_and_idempotent sampleTree).2

/-- Claim C8: if a leaf Entry has its error flag set, then after
recomputation every ancestor of that leaf, up to the root included, carries
the error flag: for every ancestor u of the leaf inside t, the node standing
at the place of u in the recomputed tree has aggregate error flag true. -/
theorem error_flag_propagates (t u leaf : Entry)
    (hu : SubEntry u t) (hl : SubEntry leaf u)
    (_hleaf : leaf.children = []) (herr : leaf.meta.err = true) :
    SubEntry (recompute u) (recompute t) ∧ (recompute u).agg.err = true := by
  refine ⟨subEntry_recompute hu, ?_⟩
  rw [agg_err_recompute]
  have hm : leaf.meta ∈ metasOf u := meta_mem_metasOf hl
  simp only [anyMetaErr]
  exact List.any_eq_true.2 ⟨leaf.meta, hm, herr⟩

/-- A directory tree whose single file failed to read. -/
def errLeaf : Entry := .mk (fileMeta "bad" 0 21 true) blankAgg []

/-- The intermediate directory holding the failed file. -/
def errMid : Entry := .mk (dirMeta "sub") blankAgg [errLeaf]

/-- The root above the intermediate directory. -/
def errTree : Entry := .mk (dirMeta "root") blankAgg [errMid]

/-- Witness for claim C8: in the two-level tree with one unreadable file,
the intermediate directory (an ancestor of the errored leaf) carries the
error flag after recomputation. -/
theorem error_flag_propagates_witness :
    SubEntry errMid errTree ∧ SubEntry errLeaf errMid ∧
    errLeaf.children = [] ∧ errLeaf.meta.err = true ∧
    (recompute errMid).agg.err = true := by
  have h1 : SubEntry errMid errTree :=
    SubEntry.step (List.mem_cons_self _ _) (SubEntry.refl _)
  have h2 : SubEntry errLeaf errMid :=
    SubEntry.step (List.mem_cons_self _ _) (SubEntry.refl _)
  exact ⟨h1, h2, rfl, rfl,
    (error_flag_propagates errTree errMid errLeaf h1 h2 rfl rfl).2⟩

/-- Modelled from the spec: the Hardlink Registry of section 3, the
process-scoped set of (device, inode) keys met so far in the current scan. -/
abbrev Registry := List (Nat × Nat)

/-- The (device, inode) key of a metadata record. -/
def fileKey (m : EntryMeta) : Nat × Nat := (m.dev, m.ino)

/-- Modelled from the spec: the walker step of section 4.1 at one entry:
a file whose (device, inode) is already in the Hardlink Registry is flagged
counted-hardlink, so that it contributes zero additional disk usage; a
first-met file registers its key; non-files pass unchanged. -/
def markMeta (reg : Registry) (m : EntryMeta) : EntryMeta × Registry :=
  if m.kind = EKind.file then
    if fileKey m ∈ reg then ({ m with counted := true }, reg)
    else (m, fileKey m :: reg)
  else (m, reg)

mutual

/-- Modelled from the spec: the hard-link deduplication pass of the
Filesystem Walker over a tree, threading the Hardlink Registry through the
entries in depth-first preorder. -/
def scanEntry (reg : Registry) : Entry → Entry × Registry
  | .mk m a cs =>
    (.mk (markMeta reg m).1 a (scanList (markMeta reg m).2 cs).1,
      (scanList (markMeta reg m).2 cs).2)

/-- The deduplication pass over a forest, left to right. -/
def scanList (reg : Registry) : List Entry → List Entry × Registry
  | [] => ([], reg)
  | c :: cs =>
    ((scanEntry reg c).1 :: (scanList (scanEntry reg c).2 cs).1,
      (scanList (scanEntry reg c).2 cs).2)

end

/-- One whole scan: walk the tree with an empty Hardlink Registry, as at
the start of a scan operation. -/
def scanTree (t : Entry) : Entry := (scanEntry [] t).1

/-- The same marking performed directly on a preorder metadata list. -/
def scanMetas (reg : Registry) : List EntryMeta → List EntryMeta × Registry
  | [] => ([], reg)
  | m :: ms =>
    ((markMeta reg m).1 :: (scanMetas (markMeta reg m).2 ms).1,
      (scanMetas (markMeta reg m).2 ms).2)

theorem scanEntry_mk (reg : Registry) (m : EntryMeta) (a : Agg)
    (cs : List Entry) :
    scanEntry reg (.mk m a cs) =
      (.mk (markMeta reg m).1 a (scanList (markMeta reg m).2 cs).1,
        (scanList (markMeta reg m).2 cs).2) := by
  simp [scanEntry]

theorem scanList_nil (reg : Registry) : scanList reg [] = ([], reg) := by
  simp [scanList]

theorem scanList_cons (reg : Registry) (c : Entry) (cs : List Entry) :
    scanList reg (c :: cs) =
      ((scanEntry reg c).1 :: (scanList (scanEntry reg c).2 cs).1,
        (scanList (scanEntry reg c).2 cs).2) := by
  simp [scanList]

theorem metasOf_mk (m : EntryMeta) (a : Agg) (cs : List Entry) :
    metasOf (.mk m a cs) = m :: metasOfList cs := by
  simp [metasOf]

theorem metasOfList_nil : metasOfList [] = [] := by simp [metasOfList]

theorem metasOfList_cons (c : Entry) (cs : List Entry) :
    metasOfList (c :: cs) = metasOf c ++ metasOfList cs := by
  simp [metasOfList]

theorem scanMetas_append (l1 l2 : List EntryMeta) : ∀ reg : Registry,
    scanMetas reg (l1 ++ l2) =
      ((scanMetas reg l1).1 ++ (scanMetas (scanMetas reg l1).2 l2).1,
        (scanMetas (scanMetas reg l1).2 l2).2) := by
  induction l1 with
  | nil => intro reg; simp [scanMetas]
  | cons m ms ih =>
    intro reg
    simp only [List.cons_append, scanMetas, List.append_eq, ih]

/-- The tree scan and the preorder-list scan agree: the preorder metadata of
the scanned tree is the scan of the preorder metadata, with the same final
registry. -/
theorem metasOf_scanEntry (t : Entry) : ∀ reg : Registry,
    metasOf (scanEntry reg t).1 = (scanMetas reg (metasOf t)).1 ∧
    (scanEntry reg t).2 = (scanMetas reg (metasOf t)).2 := by
  refine @Entry.strongInduction
    (fun t => ∀ reg : Registry,
      metasOf (scanEntry reg t).1 = (scanMetas reg (metasOf t)).1 ∧
      (scanEntry reg t).2 = (scanMetas reg (metasOf t)).2)
    (fun m a cs ih => ?_) t
  have key : ∀ cs2 : List Entry,
      (∀ c, c ∈ cs2 → ∀ reg : Registry,
        metasOf (scanEntry reg c).1 = (scanMetas reg (metasOf c)).1 ∧
        (scanEntry reg c).2 = (scanMetas reg (metasOf c)).2) →
      ∀ reg : Registry,
        metasOfList (scanList reg cs2).1 =
          (scanMetas reg (metasOfList cs2)).1 ∧
        (scanList reg cs2).2 = (scanMetas reg (metasOfList cs2)).2 := by
    intro cs2 ihl
    induction cs2 with
    | nil => intro reg; simp [scanList_nil, metasOfList_nil, scanMetas]
    | cons c cs3 ih3 =>
      intro reg
      have hc := ihl c (List.mem_cons_self _ _) reg
      have hrest := ih3 (fun d hd => ihl d (List.mem_cons_of_mem _ hd))
        (scanEntry reg c).2
      rw [scanList_cons]
      simp only [metasOfList_cons]
      rw [scanMetas_append]
      refine ⟨?_, ?_⟩
      · rw [hc.1, ← hc.2, hrest.1]
      · rw [← hc.2]
        exact hrest.2
  intro reg
  rw [scanEntry_mk, metasOf_mk, metasOf_mk]
  have hlist := key cs ih (markMeta reg m).2
  constructor
  · show (markMeta reg m).1 :: metasOfList (scanList (markMeta reg m).2 cs).1 =
      (scanMetas reg (m :: metasOfList cs)).1
    rw [hlist.1]
    rfl
  · show (scanList (markMeta reg m).2 cs).2 =
      (scanMetas reg (m :: metasOfList cs)).2
    rw [hlist.2]
    rfl

/-- Whether a metadata record is a file with the given (device, inode). -/
def isFileKeyB (k : Nat × Nat) (m : EntryMeta) : Bool :=
  decide (m.kind = EKind.file) && decide (fileKey m = k)

/-- The file metadata records with the given key, in order. -/
def keyMetas (k : Nat × Nat) (l : List EntryMeta) : List EntryMeta :=
  l.filter (isFileKeyB k)

/-- How many file entries with the given key a metadata list holds. -/
def cntKey (k : Nat × Nat) (l : List EntryMeta) : Nat := (keyMetas k l).length

/-- The file entries with the given key not flagged counted-hardlink: the
occurrences whose disk usage still counts. -/
def uncMetas (k : Nat × Nat) (l : List EntryMeta) : List EntryMeta :=
  (keyMetas k l).filter (fun m => !m.counted)

/-- How many occurrences of the key still count toward disk usage. -/
def cntUnc (k : Nat × Nat) (l : List EntryMeta) : Nat := (uncMetas k l).length

/-- The disk usage a metadata list accounts for on behalf of the key. -/
def keyDusage (k : Nat × Nat) (l : List EntryMeta) : Nat :=
  ((keyMetas k l).map ownDusage).sum

/-- The disk usage a metadata list accounts for besides the key. -/
def restDusage (k : Nat × Nat) (l : List EntryMeta) : Nat :=
  ((l.filter (fun m => !isFileKeyB k m)).map ownDusage).sum

/-- A subtree disk-usage total splits into the share of one (device, inode)
key and the share of everything else. -/
theorem totalDusage_split (k : Nat × Nat) (l : List EntryMeta) :
    totalDusage l = keyDusage k l + restDusage k l := by
  induction l with
  | nil => rfl
  | cons m ms ih =>
    simp only [totalDusage, keyDusage, restDusage, keyMetas] at ih ⊢
    cases h : isFileKeyB k m with
    | true =>
      simp only [List.filter_cons, h, if_true, ite_true, Bool.not_true,
        Bool.false_eq_true, if_false, ite_false, List.map_cons,
        List.sum_cons]
      omega
    | false =>
      simp only [List.filter_cons, h, Bool.not_false, if_true, ite_true,
        Bool.false_eq_true, if_false, ite_false, List.map_cons,
        List.sum_cons]
      omega

/-- Forget the counted-hardlink flag of a metadata record. -/
def eraseCounted (m : EntryMeta) : EntryMeta := { m with counted := false }

theorem markMeta_fst_erase (reg : Registry) (m : EntryMeta) :
    eraseCounted (markMeta reg m).1 = eraseCounted m := by
  unfold markMeta
  split
  · split <;> rfl
  · rfl

/-- The scan rewrites no metadata except the counted-hardlink flag. -/
theorem scanMetas_erase (l : List EntryMeta) : ∀ reg : Registry,
    ((scanMetas reg l).1).map eraseCounted = l.map eraseCounted := by
  induction l with
  | nil => intro reg; rfl
  | cons m ms ih =>
    intro reg
    simp only [scanMetas, List.map_cons, markMeta_fst_erase, ih]

theorem isFileKeyB_eraseCounted (k : Nat × Nat) (m : EntryMeta) :
    isFileKeyB k (eraseCounted m) = isFileKeyB k m := rfl

theorem isFileKeyB_markCounted (k : Nat × Nat) (m : EntryMeta) :
    isFileKeyB k { m with counted := true } = isFileKeyB k m := rfl

/-- Erasing counted flags does not change which records are file entries of
the key. -/
theorem cntKey_map_erase (k : Nat × Nat) (l : List EntryMeta) :
    cntKey k (l.map eraseCounted) = cntKey k l := by
  induction l with
  | nil => rfl
  | cons m ms ih =>
    simp only [cntKey, keyMetas, List.map_cons, List.filter_cons,
      isFileKeyB_eraseCounted] at *
    by_cases h : isFileKeyB k m = true <;> simp [h, ih]

/-- The key multiplicity is stable under the scan. -/
theorem cntKey_scanMetas (k : Nat × Nat) (l : List EntryMeta)
    (reg : Registry) : cntKey k (scanMetas reg l).1 = cntKey k l := by
  have h1 := cntKey_map_erase k (scanMetas reg l).1
  have h2 := cntKey_map_erase k l
  rw [scanMetas_erase l reg] at h1
  omega

theorem markMeta_not_file (reg : Registry) (m : EntryMeta)
    (h : ¬ m.kind = EKind.file) : markMeta reg m = (m, reg) := by
  unfold markMeta
  rw [if_neg h]

theorem markMeta_seen (reg : Registry) (m : EntryMeta)
    (h1 : m.kind = EKind.file) (h2 : fileKey m ∈ reg) :
    markMeta reg m = ({ m with counted := true }, reg) := by
  unfold markMeta
  rw [if_pos h1, if_pos h2]

theorem markMeta_fresh (reg : Registry) (m : EntryMeta)
    (h1 : m.kind = EKind.file) (h2 : ¬ fileKey m ∈ reg) :
    markMeta reg m = (m, fileKey m :: reg) := by
  unfold markMeta
  rw [if_pos h1, if_neg h2]

/-- What the deduplication pass does to the occurrence list of one fixed
key: with the key already registered every occurrence is flagged counted;
with the key fresh, the first occurrence passes as it is and all later
occurrences are flagged. -/
def dedupK : Bool → List EntryMeta → List EntryMeta
  | _, [] => []
  | true, m :: ms => { m with counted := true } :: dedupK true ms
  | false, m :: ms => m :: dedupK true ms

/-- The scan transforms the ordered occurrence list of a key by dedupK, and
its final registry holds the key iff the input registry did or the list has
an occurrence. -/
theorem keyMetas_scanMetas (k : Nat × Nat) (l : List EntryMeta) :
    ∀ reg : Registry,
    keyMetas k (scanMetas reg l).1 =
      dedupK (decide (k ∈ reg)) (keyMetas k l) ∧
    (k ∈ (scanMetas reg l).2 ↔ k ∈ reg ∨ keyMetas k l ≠ []) := by
  induction l with
  | nil => intro reg; simp [scanMetas, keyMetas, dedupK]
  | cons m ms ih =>
    intro reg
    by_cases hf : m.kind = EKind.file
    · by_cases hk : fileKey m = k
      · have hkeym : isFileKeyB k m = true := by
          simp [isFileKeyB, hf, hk]
        by_cases hseen : fileKey m ∈ reg
        · have hm := markMeta_seen reg m hf hseen
          have hkreg : k ∈ reg := hk ▸ hseen
          have hrest := ih reg
          constructor
          · simp only [scanMetas, hm, keyMetas, List.filter_cons,
              isFileKeyB_markCounted, hkeym, if_true, ite_true]
            simp only [keyMetas] at hrest
            rw [hrest.1]
            simp [dedupK, hkreg]
          · simp only [scanMetas, hm]
            rw [hrest.2]
            simp [keyMetas, List.filter_cons, hkeym, hkreg]
        · have hm := markMeta_fresh reg m hf hseen
          have hkreg : ¬ k ∈ reg := hk ▸ hseen
          have hrest := ih (fileKey m :: reg)
          have hkreg2 : k ∈ fileKey m :: reg := hk ▸ List.mem_cons_self _ _
          constructor
          · simp only [scanMetas, hm, keyMetas, List.filter_cons, hkeym,
              if_true, ite_true]
            simp only [keyMetas] at hrest
            rw [hrest.1]
            simp [dedupK, hkreg, hkreg2]
          · simp only [scanMetas, hm]
            rw [hrest.2]
            simp [keyMetas, List.filter_cons, hkeym, hkreg2]
      · have hkeym : isFileKeyB k m = false := by
          simp [isFileKeyB]
          intro _
          exact fun hcontra => hk hcontra
        by_cases hseen : fileKey m ∈ reg
        · have hm := markMeta_seen reg m hf hseen
          have hrest := ih reg
          constructor
          · simp only [scanMetas, hm, keyMetas, List.filter_cons,
              isFileKeyB_markCounted, hkeym, if_false, ite_false]
            simp only [keyMetas] at hrest
            rw [hrest.1]
            simp
          · simp only [scanMetas, hm]
            rw [hrest.2]
            simp [keyMetas, List.filter_cons, hkeym]
        · have hm := markMeta_fresh reg m hf hseen
          have hrest := ih (fileKey m :: reg)
          have hmem : (k ∈ fileKey m :: reg) ↔ k ∈ reg := by
            simp only [List.mem_cons]
            constructor
            · rintro (rfl | h2)
              · exact absurd rfl hk
              · exact h2
            · exact Or.inr
          constructor
          · simp only [scanMetas, hm, keyMetas, List.filter_cons, hkeym,
              if_false, ite_false]
            simp only [keyMetas] at hrest
            rw [hrest.1]
            have hd : decide (k ∈ fileKey m :: reg) = decide (k ∈ reg) := by
              simp [hmem]
            rw [hd]
            simp
          · simp only [scanMetas, hm]
            rw [hrest.2, hmem]
            simp [keyMetas, List.filter_cons, hkeym]
    · have hm := markMeta_not_file reg m hf
      have hkeym : isFileKeyB k m = false := by
        simp [isFileKeyB, hf]
      have hrest := ih reg
      constructor
      · simp only [scanMetas, hm, keyMetas, List.filter_cons, hkeym,
          if_false, ite_false]
        simp only [keyMetas] at hrest
        rw [hrest.1]
        simp
      · simp only [scanMetas, hm]
        rw [hrest.2]
        simp [keyMetas, List.filter_cons, hkeym]

/-- With a registered key every deduplicated occurrence is flagged. -/
theorem dedupK_true_all_counted (l : List EntryMeta) :
    (dedupK true l).filter (fun m => !m.counted) = [] := by
  induction l with
  | nil => rfl
  | cons m ms ih => simp [dedupK, ih]

/-- With a fresh key and clean input, exactly the first occurrence stays
still-counting. -/
theorem dedupK_false_unc (l : List EntryMeta)
    (h : ∀ m, m ∈ l → m.counted = false) :
    (dedupK false l).filter (fun m => !m.counted) = l.take 1 := by
  cases l with
  | nil => rfl
  | cons m ms =>
    simp [dedupK, h m (List.mem_cons_self _ _), dedupK_true_all_counted]

/-- The still-counting multiplicity after a scan from registry reg: zero
for a registered key, min 1 (multiplicity) for a fresh one. -/
theorem cntUnc_scanMetas (k : Nat × Nat) (l : List EntryMeta)
    (hcl : ∀ m, m ∈ l → m.counted = false) (reg : Registry) :
    cntUnc k (scanMetas reg l).1 =
      if k ∈ reg then 0 else min 1 (cntKey k l) := by
  have hkm := (keyMetas_scanMetas k l reg).1
  simp only [cntUnc, uncMetas, hkm]
  by_cases hseen : k ∈ reg
  · simp [hseen, dedupK_true_all_counted]
  · have hclk : ∀ m, m ∈ keyMetas k l → m.counted = false := by
      intro m hm
      exact hcl m (List.mem_of_mem_filter hm)
    simp [hseen, dedupK_false_unc _ hclk, cntKey, List.length_take,
      Nat.min_comm]

/-- When every occurrence of a key carries the same disk usage, as links of
a single inode do, the key share of a total is that usage times the number
of still-counting occurrences. -/
theorem keyDusage_uniform (k : Nat × Nat) (du0 : Nat) (l : List EntryMeta)
    (h : ∀ m, m ∈ l → isFileKeyB k m = true → m.dusage = du0) :
    keyDusage k l = du0 * cntUnc k l := by
  induction l with
  | nil => rfl
  | cons m ms ih =>
    have ihms := ih (fun d hd hk2 => h d (List.mem_cons_of_mem _ hd) hk2)
    by_cases hkm : isFileKeyB k m = true
    · have hdu := h m (List.mem_cons_self _ _) hkm
      have hfile : m.kind = EKind.file := by
        simp only [isFileKeyB, Bool.and_eq_true, decide_eq_true_eq] at hkm
        exact hkm.1
      cases hc : m.counted with
      | true =>
        simp only [keyDusage, cntUnc, uncMetas, keyMetas, List.filter_cons,
          hkm, if_true, ite_true, hc, Bool.not_true, Bool.false_eq_true,
          if_false, ite_false, List.map_cons, List.sum_cons] at ihms ⊢
        have hown : ownDusage m = 0 := by
          simp [ownDusage, hfile, hc]
        rw [hown, ihms]
        simp
      | false =>
        simp only [keyDusage, cntUnc, uncMetas, keyMetas, List.filter_cons,
          hkm, if_true, ite_true, hc, Bool.not_false, List.length_cons,
          List.map_cons, List.sum_cons] at ihms ⊢
        have hown : ownDusage m = du0 := by
          simp [ownDusage, hfile, hc, hdu]
        rw [hown, ihms]
        ring
    · simp only [Bool.not_eq_true] at hkm
      simp only [keyDusage, cntUnc, uncMetas, keyMetas, List.filter_cons,
        hkm, Bool.false_eq_true, if_false, ite_false] at ihms ⊢
      exact ihms

theorem uncMetas_sublist (k : Nat × Nat) {l1 l2 : List EntryMeta}
    (h : l1.Sublist l2) : (uncMetas k l1).Sublist (uncMetas k l2) :=
  (h.filter _).filter _

theorem cntUnc_le_of_sublist (k : Nat × Nat) {l1 l2 : List EntryMeta}
    (h : l1.Sublist l2) : cntUnc k l1 ≤ cntUnc k l2 :=
  (uncMetas_sublist k h).length_le

/-- A sublist holding as many occurrences of the key as the full list holds
them all, flags included. -/
theorem keyMetas_eq_of_cnt (k : Nat × Nat) {l1 l2 : List EntryMeta}
    (h : l1.Sublist l2) (hlen : cntKey k l1 = cntKey k l2) :
    keyMetas k l1 = keyMetas k l2 :=
  List.Sublist.eq_of_length (h.filter _) hlen

/-- The scan leaves the disk usage of every file of the key unchanged. -/
theorem scan_preserves_key_dusage (t : Entry) (k : Nat × Nat) (du0 : Nat)
    (hdu : ∀ m, m ∈ metasOf t → isFileKeyB k m = true → m.dusage = du0) :
    ∀ m2, m2 ∈ metasOf (scanTree t) → isFileKeyB k m2 = true →
      m2.dusage = du0 := by
  intro m2 hm2 hk2
  have herase : (metasOf (scanTree t)).map eraseCounted =
      (metasOf t).map eraseCounted := by
    rw [scanTree, (metasOf_scanEntry t []).1]
    exact scanMetas_erase (metasOf t) []
  have hmem : eraseCounted m2 ∈ (metasOf t).map eraseCounted := by
    rw [← herase]
    exact List.mem_map_of_mem _ hm2
  obtain ⟨m, hm, heq⟩ := List.mem_map.1 hmem
  have hk : isFileKeyB k m = true := by
    rw [← isFileKeyB_eraseCounted k m, heq, isFileKeyB_eraseCounted]
    exact hk2
  have hdd : m.dusage = m2.dusage := by
    have := congrArg EntryMeta.dusage heq
    simpa [eraseCounted] using this
  rw [← hdd]
  exact hdu m hm hk

/-- Claim C9 (amended): within one scan every Entry still reports its full
apparent size (the scan touches only the counted-hardlink flag), and the
disk usage of Entries sharing one (device, inode) key of uniform usage du0
is counted at most once in the total of every node of the scanned tree:
zero or one occurrence per subtree still counts, the whole scanned tree
counts the key exactly once whenever it occurs at all, and every common
ancestor holding all occurrences of the key, the scan root included, counts
it exactly as the whole tree does, that is exactly once. -/
theorem hardlink_dedup_amended (t : Entry) (k : Nat × Nat) (du0 : Nat)
    (hclean : ∀ m, m ∈ metasOf t → m.counted = false)
    (hdu : ∀ m, m ∈ metasOf t → isFileKeyB k m = true → m.dusage = du0) :
    (metasOf (scanTree t)).map eraseCounted =
      (metasOf t).map eraseCounted ∧
    cntUnc k (metasOf (scanTree t)) ≤ 1 ∧
    (1 ≤ cntKey k (metasOf t) → cntUnc k (metasOf (scanTree t)) = 1) ∧
    (∀ u, SubEntry u (scanTree t) →
      keyDusage k (metasOf u) = du0 * cntUnc k (metasOf u) ∧
      cntUnc k (metasOf u) ≤ 1 ∧
      (recompute u).agg.dusage =
        keyDusage k (metasOf u) + restDusage k (metasOf u)) ∧
    (∀ u, SubEntry u (scanTree t) →
      cntKey k (metasOf u) = cntKey k (metasOf (scanTree t)) →
      cntUnc k (metasOf u) = cntUnc k (metasOf (scanTree t))) := by
  have hmetas : metasOf (scanTree t) = (scanMetas [] (metasOf t)).1 := by
    rw [scanTree, (metasOf_scanEntry t []).1]
  have hglobalUnc : cntUnc k (metasOf (scanTree t)) =
      min 1 (cntKey k (metasOf t)) := by
    rw [hmetas, cntUnc_scanMetas k _ hclean []]
    simp
  refine ⟨?_, ?_, ?_, ?_, ?_⟩
  · rw [hmetas]
    exact scanMetas_erase (metasOf t) []
  · rw [hglobalUnc]
    exact Nat.min_le_left _ _
  · intro h1
    rw [hglobalUnc]
    omega
  · intro u hu
    have hsub := metasOf_sublist hu
    have hdu2 := scan_preserves_key_dusage t k du0 hdu
    refine ⟨?_, ?_, ?_⟩
    · exact keyDusage_uniform k du0 _
        (fun m hm hk2 => hdu2 m (hsub.mem hm) hk2)
    · exact Nat.le_trans (cntUnc_le_of_sublist k hsub)
        (by rw [hglobalUnc]; exact Nat.min_le_left _ _)
    · rw [agg_dusage_recompute, totalDusage_split k]
  · intro u hu hcnt
    have hsub := metasOf_sublist hu
    have heq := keyMetas_eq_of_cnt k hsub hcnt
    simp only [cntUnc, uncMetas, heq]

/-- A 5-byte hard link to inode 7 of device 1. -/
def linkFile (nm : String) : Entry := .mk (fileMeta nm 5 7 false) blankAgg []

/-- Two links of one inode: one at the root, one inside a subdirectory. -/
def linkTree2 : Entry :=
  .mk (dirMeta "root") blankAgg
    [ linkFile "f1", .mk (dirMeta "sub") blankAgg [ linkFile "f2" ] ]

/-- Witness for the amended claim C9 at the two-link tree: the hypotheses
hold concretely and the scanned whole tree counts the shared inode exactly
once. -/
theorem hardlink_dedup_witness :
    (∀ m, m ∈ metasOf linkTree2 → m.counted = false) ∧
    1 ≤ cntKey (1, 7) (metasOf linkTree2) ∧
    cntUnc (1, 7) (metasOf (scanTree linkTree2)) = 1 := by
  have hms : metasOf linkTree2 =
      [dirMeta "root", fileMeta "f1" 5 7 false, dirMeta "sub",
        fileMeta "f2" 5 7 false] := by
    simp [linkTree2, linkFile, metasOf_mk, metasOfList_cons, metasOfList_nil]
  have hclean : ∀ m, m ∈ metasOf linkTree2 → m.counted = false := by
    intro m hm
    rw [hms] at hm
    simp only [List.mem_cons, List.not_mem_nil, or_false] at hm
    rcases hm with rfl | rfl | rfl | rfl <;> rfl
  have hdu : ∀ m, m ∈ metasOf linkTree2 →
      isFileKeyB (1, 7) m = true → m.dusage = 5 := by
    intro m hm hk
    rw [hms] at hm
    simp only [List.mem_cons, List.not_mem_nil, or_false] at hm
    rcases hm with rfl | rfl | rfl | rfl
    · exact absurd hk (by simp [isFileKeyB, dirMeta])
    · rfl
    · exact absurd hk (by simp [isFileKeyB, dirMeta])
    · rfl
  have hcnt : 1 ≤ cntKey (1, 7) (metasOf linkTree2) := by
    rw [hms]
    simp [cntKey, keyMetas, List.filter_cons, isFileKeyB, fileKey,
      fileMeta, dirMeta]
  exact ⟨hclean, hcnt,
    (hardlink_dedup_amended linkTree2 (1, 7) 5 hclean hdu).2.2.1 hcnt⟩

/-- The counted variant of a 5-byte link to (1, 7). -/
def countedLink (nm : String) : Entry :=
  .mk { fileMeta nm 5 7 false with counted := true } blankAgg []

/-- Three links of one inode: e1 at the root, e2 and e3 inside the
subdirectory D. -/
def linkTree3 : Entry :=
  .mk (dirMeta "root") blankAgg
    [ linkFile "e1"
    , .mk (dirMeta "D") blankAgg [ linkFile "e2", linkFile "e3" ] ]

/-- The subdirectory D after the scan: both of its links are flagged
counted, because e1 outside D registered the key first. -/
def scannedD : Entry :=
  .mk (dirMeta "D") blankAgg [ countedLink "e2", countedLink "e3" ]

/-- Counterexample to claim C9 as stated: e2 and e3 are a pair of Entries
of one scan sharing (device, inode) = (1, 7), each reporting apparent size
5 and disk usage 5, and D (inside the scanned tree) is a common ancestor of
both; yet the recomputed disk-usage total of D is 0, not 5: the pair is
counted zero times there, because the first link e1 lives outside D.  So
the pair is not counted exactly once in EVERY common ancestor. -/
theorem hardlink_pair_counterexample :
    scanTree linkTree3 =
      .mk (dirMeta "root") blankAgg [ linkFile "e1", scannedD ] ∧
    SubEntry scannedD (scanTree linkTree3) ∧
    scannedD.children = [countedLink "e2", countedLink "e3"] ∧
    (countedLink "e2").meta.dev = 1 ∧ (countedLink "e2").meta.ino = 7 ∧
    (countedLink "e3").meta.dev = 1 ∧ (countedLink "e3").meta.ino = 7 ∧
    (countedLink "e2").meta.asize = 5 ∧ (countedLink "e3").meta.asize = 5 ∧
    (countedLink "e2").meta.dusage = 5 ∧ (countedLink "e3").meta.dusage = 5 ∧
    (recompute scannedD).agg.dusage = 0 ∧
    ¬ (recompute scannedD).agg.dusage = 5 := by
  have hscan : scanTree linkTree3 =
      .mk (dirMeta "root") blankAgg [ linkFile "e1", scannedD ] := by
    simp [scanTree, linkTree3, linkFile, scannedD, countedLink,
      scanEntry_mk, scanList_cons, scanList_nil, markMeta, fileKey,
      fileMeta, dirMeta]
  have hD : (recompute scannedD).agg.dusage = 0 := by
    simp [scannedD, countedLink, recompute_mk, recomputeList_cons,
      recomputeList_nil, aggOf, sumDusage, ownDusage, Entry.agg,
      fileMeta, dirMeta]
  refine ⟨hscan, ?_, rfl, rfl, rfl, rfl, rfl, rfl, rfl, rfl, rfl, hD, ?_⟩
  · rw [hscan]
    exact SubEntry.step
      (List.mem_cons_of_mem _ (List.mem_cons_self _ _)) (SubEntry.refl _)
  · rw [hD]
    omega

end Ncdu
